import Mathlib

/-!
Verification of the dependency-graph layering core (`pkg/object/graph/graph.go`).

The Go code is shallowly embedded:

* `ObjMetadata` is the vertex identity `(group, kind, namespace, name)`.
* A `Graph` is modelled as an association list from a vertex to its list of
  dependencies ("to" vertices), mirroring the Go map
  `edges map[ObjMetadata]ObjMetadataSet`; a Go map is a finite key/value
  association, so an association list with distinct keys represents the same
  states, and any fact independent of entry order holds for the Go map.
* The destructive `Sort` is modelled as a function returning the produced
  layers, the final (residual) graph, and the optional cyclic-dependency
  error; Go's in-place mutation becomes explicit state passing.
-/

/-- The vertex identity: one cluster resource's coordinates.
(The Go field `Namespace` is rendered `nspace`, since `namespace` is a Lean
keyword.) -/
structure ObjMetadata where
  group : String
  kind : String
  nspace : String
  name : String
deriving DecidableEq, Repr

/-- Lexicographic strict comparison of character sequences by code point —
Go's `<` on strings (UTF-8 byte order and code-point order agree). -/
def strLtAux : List Char → List Char → Bool
  | [], [] => false
  | [], _ :: _ => true
  | _ :: _, [] => false
  | a :: as, b :: bs =>
    if a.toNat < b.toNat then true
    else if b.toNat < a.toNat then false
    else strLtAux as bs

/-- Go's `<` on strings. -/
def strLt (x y : String) : Bool :=
  strLtAux x.data y.data

/-- One lexicographic comparison step: strictly before on this field, or the
fields are equal and the remaining fields decide. -/
def lexStep (x y : String) (rest : Bool) : Bool :=
  if x ≠ y then strLt x y else rest

/-- Embeds `metaIsLessThan` from graph.go: lexicographic strict comparison on
(group, kind, namespace, name). -/
def metaIsLessThan (i j : ObjMetadata) : Bool :=
  lexStep i.group j.group <|
    lexStep i.kind j.kind <|
      lexStep i.nspace j.nspace <|
        strLt i.name j.name

/-- The non-strict order induced by `metaIsLessThan`; a sequence produced by
Go's `sort.Sort` with `Less = metaIsLessThan` is exactly one that is pairwise
`metaLE`-sorted. -/
def metaLE (i j : ObjMetadata) : Bool :=
  !(metaIsLessThan j i)

/-- Embeds the `Edge` struct: a directed edge `From` depends-on `To`. -/
structure Edge where
  From : ObjMetadata
  To : ObjMetadata
deriving DecidableEq, Repr

/-- Embeds `SortableEdges.Less` from graph.go: order edges by `From`, then `To`. -/
def edgeIsLessThan (a b : Edge) : Bool :=
  if a.From ≠ b.From then metaIsLessThan a.From b.From
  else metaIsLessThan a.To b.To

/-- The non-strict order induced by `edgeIsLessThan`. -/
def edgeLE (a b : Edge) : Bool :=
  !(edgeIsLessThan b a)

theorem charToNat_inj (a b : Char) (h : a.toNat = b.toNat) : a = b := by
  apply Char.eq_of_val_eq
  apply UInt32.toNat.inj h

theorem strLtAux_irrefl (x : List Char) : strLtAux x x = false := by
  induction x with
  | nil => rfl
  | cons a as ih => simp [strLtAux, ih]

theorem strLtAux_asymm (x y : List Char) :
    strLtAux x y = true → strLtAux y x = false := by
  induction x generalizing y with
  | nil => cases y <;> simp [strLtAux]
  | cons a as ih =>
    cases y with
    | nil => simp [strLtAux]
    | cons b bs =>
      simp only [strLtAux]
      by_cases h1 : a.toNat < b.toNat
      · have h2 : ¬ b.toNat < a.toNat := by omega
        simp [h1, h2]
      · by_cases h2 : b.toNat < a.toNat
        · simp [h1, h2]
        · rw [if_neg h1, if_neg h2, if_neg h2, if_neg h1]
          exact ih bs

theorem strLtAux_total_ne (x y : List Char) (h : x ≠ y) :
    strLtAux x y = true ∨ strLtAux y x = true := by
  induction x generalizing y with
  | nil =>
    cases y with
    | nil => exact absurd rfl h
    | cons b bs => simp [strLtAux]
  | cons a as ih =>
    cases y with
    | nil => simp [strLtAux]
    | cons b bs =>
      simp only [strLtAux]
      by_cases h1 : a.toNat < b.toNat
      · simp [h1]
      · by_cases h2 : b.toNat < a.toNat
        · simp [h1, h2]
        · have hab : a = b := charToNat_inj a b (by omega)
          subst hab
          have hne : as ≠ bs := fun hc => h (by rw [hc])
          simpa [h1, h2] using ih bs hne

theorem strLtAux_trans (x y z : List Char) :
    strLtAux x y = true → strLtAux y z = true → strLtAux x z = true := by
  induction x generalizing y z with
  | nil =>
    cases y <;> cases z <;> simp [strLtAux]
  | cons a as ih =>
    cases y with
    | nil => simp [strLtAux]
    | cons b bs =>
      cases z with
      | nil => simp [strLtAux]
      | cons c cs =>
        simp only [strLtAux]
        by_cases h1 : a.toNat < b.toNat <;> by_cases h2 : b.toNat < c.toNat
        · simp [show a.toNat < c.toNat by omega]
        · by_cases h3 : c.toNat < b.toNat
          · simp [h2, h3]
          · simp [h2, h3, show a.toNat < c.toNat by omega]
        · by_cases h0 : b.toNat < a.toNat
          · simp [h1, h0]
          · simp [h1, h0, show a.toNat < c.toNat by omega]
        · by_cases h0 : b.toNat < a.toNat
          · simp [h1, h0]
          · by_cases h3 : c.toNat < b.toNat
            · simp [h2, h3]
            · have hac1 : ¬ a.toNat < c.toNat := by omega
              have hac2 : ¬ c.toNat < a.toNat := by omega
              simp [h1, h0, h2, h3, hac1, hac2]
              exact ih bs cs

theorem strLt_irrefl (x : String) : strLt x x = false :=
  strLtAux_irrefl x.data

theorem strLt_asymm (x y : String) : strLt x y = true → strLt y x = false :=
  strLtAux_asymm x.data y.data

theorem strLt_total_ne (x y : String) (h : x ≠ y) :
    strLt x y = true ∨ strLt y x = true :=
  strLtAux_total_ne x.data y.data (fun hc => h (String.ext hc))

theorem strLt_trans (x y z : String) :
    strLt x y = true → strLt y z = true → strLt x z = true :=
  strLtAux_trans x.data y.data z.data

theorem lexStep_asymm (x y : String) (r s : Bool)
    (h : r = true → s = false) :
    lexStep x y r = true → lexStep y x s = false := by
  unfold lexStep
  by_cases hxy : x = y
  · subst hxy; simpa using h
  · simp only [ne_eq, hxy, not_false_eq_true, if_pos, Ne.symm hxy]
    exact strLt_asymm x y

theorem lexStep_total (x y : String) (r s : Bool)
    (h : x = y → (r || s) = true) :
    (lexStep x y r || lexStep y x s) = true := by
  unfold lexStep
  by_cases hxy : x = y
  · subst hxy; simpa using h rfl
  · simp only [ne_eq, hxy, not_false_eq_true, if_pos, Ne.symm hxy, Bool.or_eq_true]
    exact strLt_total_ne x y hxy

theorem lexStep_trans (x y z : String) (r s t : Bool)
    (h : r = true → s = true → t = true) :
    lexStep x y r = true → lexStep y z s = true → lexStep x z t = true := by
  unfold lexStep
  by_cases hxy : x = y <;> by_cases hyz : y = z
  · subst hxy; subst hyz; simpa using h
  · subst hxy; simp [hyz]
  · subst hyz
    simp only [ne_eq, hxy, not_false_eq_true, if_pos]
    exact fun h1 _ => h1
  · by_cases hxz : x = z
    · subst hxz
      simp only [ne_eq, hxy, hyz, not_false_eq_true, if_pos]
      intro h1 h2
      rw [strLt_asymm x y h1] at h2
      exact absurd h2 (by simp)
    · simp only [ne_eq, hxy, hyz, hxz, not_false_eq_true, if_pos]
      exact strLt_trans x y z

theorem metaIsLessThan_asymm (i j : ObjMetadata) :
    metaIsLessThan i j = true → metaIsLessThan j i = false := by
  unfold metaIsLessThan
  refine lexStep_asymm _ _ _ _ ?_
  refine lexStep_asymm _ _ _ _ ?_
  refine lexStep_asymm _ _ _ _ ?_
  exact strLt_asymm _ _

theorem metaIsLessThan_total_ne (i j : ObjMetadata) (hne : i ≠ j) :
    metaIsLessThan i j = true ∨ metaIsLessThan j i = true := by
  have : (metaIsLessThan i j || metaIsLessThan j i) = true := by
    unfold metaIsLessThan
    refine lexStep_total _ _ _ _ ?_
    intro h1
    refine lexStep_total _ _ _ _ ?_
    intro h2
    refine lexStep_total _ _ _ _ ?_
    intro h3
    have hn : i.name ≠ j.name := by
      intro h4
      exact hne (by cases i; cases j; simp_all)
    simpa using strLt_total_ne _ _ hn
  simpa using this

theorem metaIsLessThan_trans (i j k : ObjMetadata) :
    metaIsLessThan i j = true → metaIsLessThan j k = true →
    metaIsLessThan i k = true := by
  unfold metaIsLessThan
  refine lexStep_trans _ _ _ _ _ _ ?_
  refine lexStep_trans _ _ _ _ _ _ ?_
  refine lexStep_trans _ _ _ _ _ _ ?_
  exact strLt_trans _ _ _

theorem metaIsLessThan_irrefl (i : ObjMetadata) : metaIsLessThan i i = false := by
  unfold metaIsLessThan lexStep
  simp [strLt_irrefl]

theorem metaLE_total (i j : ObjMetadata) : (metaLE i j || metaLE j i) = true := by
  unfold metaLE
  rcases Decidable.em (i = j) with h | h
  · subst h; simp [metaIsLessThan_irrefl]
  · rcases metaIsLessThan_total_ne i j h with hlt | hlt
    · simp [metaIsLessThan_asymm _ _ hlt]
    · simp [metaIsLessThan_asymm _ _ hlt]

theorem metaLE_trans (a b c : ObjMetadata) :
    metaLE a b = true → metaLE b c = true → metaLE a c = true := by
  unfold metaLE
  simp only [Bool.not_eq_true']
  intro hab hbc
  by_contra hca
  simp only [Bool.not_eq_false] at hca
  rcases Decidable.em (b = c) with h | h
  · subst h; rw [hca] at hab; exact absurd hab (by simp)
  · rcases metaIsLessThan_total_ne b c h with hlt | hlt
    · have := metaIsLessThan_trans _ _ _ hlt hca
      rw [this] at hab
      exact absurd hab (by simp)
    · rw [hlt] at hbc
      exact absurd hbc (by simp)

theorem metaLE_antisymm (a b : ObjMetadata) :
    metaLE a b = true → metaLE b a = true → a = b := by
  unfold metaLE
  simp only [Bool.not_eq_true']
  intro hab hba
  by_contra hne
  rcases metaIsLessThan_total_ne a b hne with h | h
  · rw [h] at hba; exact absurd hba (by simp)
  · rw [h] at hab; exact absurd hab (by simp)

theorem metaLE_refl (a : ObjMetadata) : metaLE a a = true := by
  unfold metaLE
  simp [metaIsLessThan_irrefl]

theorem edgeIsLessThan_asymm (a b : Edge) :
    edgeIsLessThan a b = true → edgeIsLessThan b a = false := by
  unfold edgeIsLessThan
  by_cases h : a.From = b.From
  · rw [if_neg (by simp [h]), if_neg (by simp [h.symm])]
    exact metaIsLessThan_asymm _ _
  · rw [if_pos (by simpa using h), if_pos (by simpa using Ne.symm h)]
    exact metaIsLessThan_asymm _ _

theorem edgeIsLessThan_total_ne (a b : Edge) (hne : a ≠ b) :
    edgeIsLessThan a b = true ∨ edgeIsLessThan b a = true := by
  unfold edgeIsLessThan
  by_cases h : a.From = b.From
  · rw [if_neg (by simp [h]), if_neg (by simp [h.symm])]
    have hTo : a.To ≠ b.To := by
      intro hc
      exact hne (by cases a; cases b; simp_all)
    exact metaIsLessThan_total_ne _ _ hTo
  · rw [if_pos (by simpa using h), if_pos (by simpa using Ne.symm h)]
    exact metaIsLessThan_total_ne _ _ h

theorem edgeIsLessThan_trans (a b c : Edge) :
    edgeIsLessThan a b = true → edgeIsLessThan b c = true →
    edgeIsLessThan a c = true := by
  unfold edgeIsLessThan
  by_cases h1 : a.From = b.From <;> by_cases h2 : b.From = c.From
  · rw [if_neg (by simp [h1]), if_neg (by simp [h2]),
      if_neg (by simp [h1.trans h2])]
    exact metaIsLessThan_trans _ _ _
  · rw [if_neg (by simp [h1]), if_pos (by simpa using h2),
      if_pos (by simpa [h1] using h2)]
    intro _ hlt
    rwa [h1]
  · rw [if_pos (by simpa using h1), if_neg (by simp [h2]),
      if_pos (by simpa [← h2] using h1)]
    intro hlt _
    rwa [h2] at hlt
  · rw [if_pos (by simpa using h1), if_pos (by simpa using h2)]
    intro hab hbc
    by_cases h3 : a.From = c.From
    · exfalso
      rw [h3] at hab
      have := metaIsLessThan_asymm _ _ hbc
      rw [metaIsLessThan_asymm _ _ (by rwa [this] at hab ⊢)] at hbc
      · exact absurd hbc (by simp)
    · rw [if_pos (by simpa using h3)]
      exact metaIsLessThan_trans _ _ _ hab hbc

theorem edgeLE_total (a b : Edge) : (edgeLE a b || edgeLE b a) = true := by
  unfold edgeLE
  rcases Decidable.em (a = b) with h | h
  · subst h
    have : edgeIsLessThan a a = false := by
      unfold edgeIsLessThan
      simp [metaIsLessThan_irrefl]
    simp [this]
  · rcases edgeIsLessThan_total_ne a b h with hlt | hlt
    · simp [edgeIsLessThan_asymm _ _ hlt]
    · simp [edgeIsLessThan_asymm _ _ hlt]

theorem edgeLE_trans (a b c : Edge) :
    edgeLE a b = true → edgeLE b c = true → edgeLE a c = true := by
  unfold edgeLE
  simp only [Bool.not_eq_true']
  intro hab hbc
  by_contra hca
  simp only [Bool.not_eq_false] at hca
  rcases Decidable.em (b = c) with h | h
  · subst h; rw [hca] at hab; exact absurd hab (by simp)
  · rcases edgeIsLessThan_total_ne b c h with hlt | hlt
    · have := edgeIsLessThan_trans _ _ _ hlt hca
      rw [this] at hab
      exact absurd hab (by simp)
    · rw [hlt] at hbc
      exact absurd hbc (by simp)

theorem edgeLE_antisymm (a b : Edge) :
    edgeLE a b = true → edgeLE b a = true → a = b := by
  unfold edgeLE
  simp only [Bool.not_eq_true']
  intro hab hba
  by_contra hne
  rcases edgeIsLessThan_total_ne a b hne with h | h
  · rw [h] at hba; exact absurd hba (by simp)
  · rw [h] at hab; exact absurd hab (by simp)

/-- Go's `ObjMetadataSet` (a slice of identities). -/
abbrev ObjMetadataSet := List ObjMetadata

/-- The `Graph` struct: Go's `edges map[ObjMetadata]ObjMetadataSet`, as an
association list whose keys are the vertices and whose values are the
dependency ("to") lists. -/
abbrev Graph := List (ObjMetadata × ObjMetadataSet)

/-- The vertex set: the keys of the adjacency map, in entry order. -/
def Graph.keys (g : Graph) : ObjMetadataSet :=
  g.map Prod.fst

/-- Map access `g.edges[v]`: the dependency list of `v`, when present. -/
def Graph.adj : Graph → ObjMetadata → Option ObjMetadataSet
  | [], _ => none
  | e :: es, v => if e.1 = v then some e.2 else Graph.adj es v

/-- Embeds `New`: the empty graph. -/
def Graph.New : Graph := []

/-- Embeds `AddVertex`: insert `v` with an empty adjacency list unless it is
already a key. -/
def Graph.AddVertex (g : Graph) (v : ObjMetadata) : Graph :=
  match Graph.adj g v with
  | some _ => g
  | none => g ++ [(v, [])]

/-- Embeds the map update `g.edges[frm] = append(g.edges[frm], toV)`. -/
def Graph.appendAdj (g : Graph) (frm toV : ObjMetadata) : Graph :=
  g.map (fun e => if e.1 = frm then (e.1, e.2 ++ [toV]) else e)

/-- Embeds `isAdjacent`: the edge `frm -> toV` is present. -/
def Graph.isAdjacent (g : Graph) (frm toV : ObjMetadata) : Bool :=
  match Graph.adj g frm with
  | none => false
  | some l => decide (toV ∈ l)

/-- Embeds `AddEdge`: ensure both endpoints are present (exactly the
`AddVertex` insertion, inlined in the Go body), then append `toV` to `frm`'s
adjacency list unless the edge already exists. -/
def Graph.AddEdge (g : Graph) (frm toV : ObjMetadata) : Graph :=
  let g1 := Graph.AddVertex g frm
  let g2 := Graph.AddVertex g1 toV
  if Graph.isAdjacent g2 frm toV then g2 else Graph.appendAdj g2 frm toV

/-- The non-strict vertex order as a relation (`metaLE` as a `Prop`). -/
def metaLEr (a b : ObjMetadata) : Prop := metaLE a b = true

instance : DecidableRel metaLEr := fun a b => instDecidableEqBool (metaLE a b) true

instance : IsTotal ObjMetadata metaLEr :=
  ⟨fun a b => by
    rcases Bool.or_eq_true_iff.mp (metaLE_total a b) with h | h
    · exact Or.inl h
    · exact Or.inr h⟩

instance : IsTrans ObjMetadata metaLEr := ⟨metaLE_trans⟩

instance : IsAntisymm ObjMetadata metaLEr := ⟨metaLE_antisymm⟩

/-- The non-strict edge order as a relation (`edgeLE` as a `Prop`). -/
def edgeLEr (a b : Edge) : Prop := edgeLE a b = true

instance : DecidableRel edgeLEr := fun a b => instDecidableEqBool (edgeLE a b) true

instance : IsTotal Edge edgeLEr :=
  ⟨fun a b => by
    rcases Bool.or_eq_true_iff.mp (edgeLE_total a b) with h | h
    · exact Or.inl h
    · exact Or.inr h⟩

instance : IsTrans Edge edgeLEr := ⟨edgeLE_trans⟩

instance : IsAntisymm Edge edgeLEr := ⟨edgeLE_antisymm⟩

/-- Embeds `GetVertices`: every key, sorted by `metaIsLessThan`
(`ordering.SortableMetas` applies the same field-by-field comparison;
Go's `sort.Sort` produces a sequence pairwise ordered by `metaLEr`, which
the sorted permutation below realises). -/
def Graph.GetVertices (g : Graph) : ObjMetadataSet :=
  List.insertionSort metaLEr (Graph.keys g)

/-- The edges as (From, To) pairs in entry order: the collection loop of
`GetEdges` before sorting. -/
def Graph.edgeList (g : Graph) : List Edge :=
  g.flatMap (fun e => e.2.map (fun t => ⟨e.1, t⟩))

/-- Embeds `GetEdges`: every edge, sorted by From then To (`SortableEdges`). -/
def Graph.GetEdges (g : Graph) : List Edge :=
  List.insertionSort edgeLEr (Graph.edgeList g)

/-- Embeds `Size`: the number of vertices. -/
def Graph.Size (g : Graph) : Nat :=
  g.length

/-- `ObjMetadataSet.Remove` (package object, whose source is not among the
given files). Modelled from the spec: dependency sets have set semantics, so
removal drops the identity from the set. -/
def ObjMetadataSet.Remove (s : ObjMetadataSet) (r : ObjMetadata) : ObjMetadataSet :=
  s.filter (fun u => !decide (u = r))

/-- Embeds `removeVertex`: drop `r` from every adjacency list, then delete the
key `r` itself. -/
def Graph.removeVertex (g : Graph) (r : ObjMetadata) : Graph :=
  (g.map (fun e => (e.1, ObjMetadataSet.Remove e.2 r))).filter
    (fun e => !decide (e.1 = r))

/-- The leaf collection loop of `Sort`: every vertex whose adjacency list is
empty, in entry order. -/
def Graph.leafVertices (g : Graph) : ObjMetadataSet :=
  (g.filter (fun e => e.2.isEmpty)).map Prod.fst

/-- Embeds `CyclicDependencyError`: carries the residual edges. -/
structure CyclicDependencyError where
  Edges : List Edge
deriving DecidableEq, Repr

/-- `validation.NewError` (package validation, whose source is not among the
given files). Modelled from the spec: the failure carries the underlying
cyclic-dependency diagnostic together with every residual vertex. -/
structure ValidationError where
  err : CyclicDependencyError
  ids : ObjMetadataSet
deriving DecidableEq, Repr

/-- One pass of the `Sort` loop: remove every current leaf as one batch. -/
def Graph.step (g : Graph) : Graph :=
  (Graph.leafVertices g).foldl Graph.removeVertex g

/-- The `Sort` loop with an explicit fuel bound on the number of passes (the
Go loop runs until the graph is empty or no leaf exists; every executed pass
removes at least one vertex, so `Size g` passes always suffice, which
`Graph.topoSort` uses). Returns the layers, the residual graph (Go mutates
`g` in place), and the optional error. -/
def Graph.sortFuel : Nat → Graph → List ObjMetadataSet × Graph × Option ValidationError
  | 0, g => ([], g, none)
  | fuel+1, g =>
    if Graph.Size g = 0 then ([], g, none)
    else
      let lv := Graph.leafVertices g
      if lv.isEmpty then
        ([], g, some ⟨⟨Graph.GetEdges g⟩, Graph.GetVertices g⟩)
      else
        let g' := lv.foldl Graph.removeVertex g
        let rest := Graph.sortFuel fuel g'
        (lv :: rest.1, rest.2)

/-- Embeds `Sort` (named `topoSort`: `Sort` is a Lean keyword). -/
def Graph.topoSort (g : Graph) : List ObjMetadataSet × Graph × Option ValidationError :=
  Graph.sortFuel (Graph.Size g) g

theorem Graph.adj_isSome_iff (g : Graph) (v : ObjMetadata) :
    (Graph.adj g v).isSome = true ↔ v ∈ Graph.keys g := by
  induction g with
  | nil => simp [Graph.adj, Graph.keys]
  | cons e es ih =>
    rw [Graph.adj]
    by_cases h : e.1 = v
    · simp [Graph.keys, h]
    · rw [if_neg h]
      simp only [Graph.keys, List.map_cons, List.mem_cons] at ih ⊢
      rw [ih]
      constructor
      · exact Or.inr
      · rintro (hc | hc)
        · exact absurd hc.symm h
        · exact hc

theorem Graph.adj_eq_none_iff (g : Graph) (v : ObjMetadata) :
    Graph.adj g v = none ↔ v ∉ Graph.keys g := by
  rw [← Graph.adj_isSome_iff]
  cases Graph.adj g v <;> simp

theorem Graph.adj_mem (g : Graph) (v : ObjMetadata) (l : ObjMetadataSet) :
    Graph.adj g v = some l → (v, l) ∈ g := by
  induction g with
  | nil => simp [Graph.adj]
  | cons e es ih =>
    rw [Graph.adj]
    by_cases h : e.1 = v
    · rw [if_pos h]
      intro hl
      injection hl with hl
      subst h
      subst hl
      exact List.mem_cons_self e es
    · rw [if_neg h]
      intro hl
      exact List.mem_cons_of_mem _ (ih hl)

theorem Graph.mem_adj (g : Graph) (v : ObjMetadata) (l : ObjMetadataSet)
    (hnd : (Graph.keys g).Nodup) (hm : (v, l) ∈ g) : Graph.adj g v = some l := by
  induction g with
  | nil => simp at hm
  | cons e es ih =>
    simp only [Graph.keys, List.map_cons, List.nodup_cons] at hnd
    rcases List.mem_cons.mp hm with h | h
    · rw [Graph.adj, if_pos (by rw [← h])]
      rw [← h]
    · have h1 : e.1 ≠ v := by
        intro hc
        exact hnd.1 (hc ▸ (List.mem_map.mpr ⟨(v, l), h, rfl⟩))
      rw [Graph.adj, if_neg h1]
      exact ih hnd.2 h

theorem Graph.AddVertex_of_mem (g : Graph) (v : ObjMetadata)
    (h : v ∈ Graph.keys g) : Graph.AddVertex g v = g := by
  rw [Graph.AddVertex]
  rcases ho : Graph.adj g v with _ | l
  · exact absurd ((Graph.adj_eq_none_iff g v).mp ho) (by simp [h])
  · rfl

theorem Graph.AddVertex_of_not_mem (g : Graph) (v : ObjMetadata)
    (h : v ∉ Graph.keys g) : Graph.AddVertex g v = g ++ [(v, [])] := by
  rw [Graph.AddVertex, (Graph.adj_eq_none_iff g v).mpr h]

theorem Graph.keys_AddVertex (g : Graph) (v : ObjMetadata) :
    Graph.keys (Graph.AddVertex g v) =
      if v ∈ Graph.keys g then Graph.keys g else Graph.keys g ++ [v] := by
  by_cases h : v ∈ Graph.keys g
  · rw [Graph.AddVertex_of_mem g v h, if_pos h]
  · rw [Graph.AddVertex_of_not_mem g v h, if_neg h]
    simp [Graph.keys]

theorem Graph.mem_keys_AddVertex_self (g : Graph) (v : ObjMetadata) :
    v ∈ Graph.keys (Graph.AddVertex g v) := by
  rw [Graph.keys_AddVertex]
  by_cases h : v ∈ Graph.keys g <;> simp [h]

theorem Graph.mem_keys_AddVertex_of_mem (g : Graph) (v w : ObjMetadata)
    (h : w ∈ Graph.keys g) : w ∈ Graph.keys (Graph.AddVertex g v) := by
  rw [Graph.keys_AddVertex]
  by_cases hv : v ∈ Graph.keys g <;> simp [hv, h]

theorem Graph.keys_appendAdj (g : Graph) (frm toV : ObjMetadata) :
    Graph.keys (Graph.appendAdj g frm toV) = Graph.keys g := by
  unfold Graph.keys Graph.appendAdj
  rw [List.map_map]
  apply List.map_congr_left
  intro e _
  by_cases h : e.1 = frm <;> simp [h]

theorem Graph.adj_appendAdj (g : Graph) (frm toV v : ObjMetadata) :
    Graph.adj (Graph.appendAdj g frm toV) v =
      if v = frm then (Graph.adj g v).map (fun l => l ++ [toV])
      else Graph.adj g v := by
  induction g with
  | nil => unfold Graph.appendAdj; by_cases h : v = frm <;> simp [Graph.adj, h]
  | cons e es ih =>
    unfold Graph.appendAdj at ih ⊢
    rw [List.map_cons]
    by_cases h1 : e.1 = frm <;> by_cases h2 : e.1 = v
    · have hvf : v = frm := h2 ▸ h1
      rw [if_pos h1]
      simp only [Graph.adj]
      simp [h1, h2, hvf]
    · have hvf : ¬ v = frm := fun hc => h2 (h1.trans hc.symm)
      rw [if_pos h1]
      simp only [Graph.adj]
      simp [h2, hvf, ih]
    · have hvf : ¬ v = frm := fun hc => h1 (h2.trans hc)
      rw [if_neg h1]
      simp only [Graph.adj]
      simp [h2, hvf]
    · rw [if_neg h1]
      simp only [Graph.adj]
      simp [h2, ih]

theorem Graph.mem_keys_AddEdge (g : Graph) (frm toV : ObjMetadata) :
    frm ∈ Graph.keys (Graph.AddEdge g frm toV) ∧
    toV ∈ Graph.keys (Graph.AddEdge g frm toV) := by
  rw [Graph.AddEdge]
  by_cases h : Graph.isAdjacent (Graph.AddVertex (Graph.AddVertex g frm) toV) frm toV
  · simp only [h, if_pos]
    exact ⟨Graph.mem_keys_AddVertex_of_mem _ _ _ (Graph.mem_keys_AddVertex_self g frm),
      Graph.mem_keys_AddVertex_self _ toV⟩
  · simp only [h, if_neg, Bool.false_eq_true, not_false_eq_true, Graph.keys_appendAdj]
    exact ⟨Graph.mem_keys_AddVertex_of_mem _ _ _ (Graph.mem_keys_AddVertex_self g frm),
      Graph.mem_keys_AddVertex_self _ toV⟩

theorem Graph.isAdjacent_AddEdge (g : Graph) (frm toV : ObjMetadata) :
    Graph.isAdjacent (Graph.AddEdge g frm toV) frm toV = true := by
  rw [Graph.AddEdge]
  by_cases h : Graph.isAdjacent (Graph.AddVertex (Graph.AddVertex g frm) toV) frm toV
  · simp [h]
  · simp only [h, if_neg, Bool.false_eq_true, not_false_eq_true]
    rw [Graph.isAdjacent] at h ⊢
    rw [Graph.adj_appendAdj, if_pos rfl]
    rcases ho : Graph.adj (Graph.AddVertex (Graph.AddVertex g frm) toV) frm with _ | l
    · exfalso
      have := (Graph.adj_eq_none_iff _ _).mp ho
      exact this (Graph.mem_keys_AddVertex_of_mem _ _ _ (Graph.mem_keys_AddVertex_self g frm))
    · simp

theorem Graph.AddEdge_eq (g : Graph) (frm toV : ObjMetadata) :
    Graph.AddEdge g frm toV =
      if Graph.isAdjacent (Graph.AddVertex (Graph.AddVertex g frm) toV) frm toV
      then Graph.AddVertex (Graph.AddVertex g frm) toV
      else Graph.appendAdj (Graph.AddVertex (Graph.AddVertex g frm) toV) frm toV := rfl

theorem Graph.AddVertex_idem (g : Graph) (v : ObjMetadata) :
    Graph.AddVertex (Graph.AddVertex g v) v = Graph.AddVertex g v :=
  Graph.AddVertex_of_mem _ _ (Graph.mem_keys_AddVertex_self g v)

theorem Graph.AddEdge_idem (g : Graph) (frm toV : ObjMetadata) :
    Graph.AddEdge (Graph.AddEdge g frm toV) frm toV = Graph.AddEdge g frm toV := by
  have h1 := (Graph.mem_keys_AddEdge g frm toV).1
  have h2 := (Graph.mem_keys_AddEdge g frm toV).2
  rw [Graph.AddEdge_eq (Graph.AddEdge g frm toV), Graph.AddVertex_of_mem _ _ h1,
    Graph.AddVertex_of_mem _ _ h2, if_pos (Graph.isAdjacent_AddEdge g frm toV)]

/-- Concrete sample identities for witnesses. -/
def objA : ObjMetadata := ⟨"g", "K", "n", "a"⟩

def objB : ObjMetadata := ⟨"g", "K", "n", "b"⟩

def objC : ObjMetadata := ⟨"g", "K", "n", "c"⟩

def objD : ObjMetadata := ⟨"g", "K", "n", "d"⟩

/-- C9: `Sort` on an empty graph (as returned by `New`) returns an empty layer
sequence, leaves the graph empty, and reports no error. -/
theorem claim_C9 : Graph.topoSort Graph.New = ([], Graph.New, none) := rfl

/-- C5: insertion is idempotent — `AddVertex` twice on the same identity or
`AddEdge` twice on the same ordered pair produces the very same graph as one
call, and `AddVertex` on an already-present vertex leaves the graph (hence its
existing dependency set) unchanged. -/
theorem claim_C5 (g : Graph) (v frm toV : ObjMetadata) :
    Graph.AddVertex (Graph.AddVertex g v) v = Graph.AddVertex g v ∧
    Graph.AddEdge (Graph.AddEdge g frm toV) frm toV = Graph.AddEdge g frm toV ∧
    (v ∈ Graph.keys g → Graph.AddVertex g v = g) :=
  ⟨Graph.AddVertex_idem g v, Graph.AddEdge_idem g frm toV,
    Graph.AddVertex_of_mem g v⟩

/-- Witness for C5 at a concrete graph: `objA` is present in
`AddEdge New objA objB`, and re-adding it leaves the graph unchanged. -/
theorem claim_C5_witness :
    objA ∈ Graph.keys (Graph.AddEdge Graph.New objA objB) ∧
    Graph.AddVertex (Graph.AddEdge Graph.New objA objB) objA =
      Graph.AddEdge Graph.New objA objB :=
  ⟨by decide, (claim_C5 (Graph.AddEdge Graph.New objA objB) objA objA objB).2.2
    (by decide)⟩

/-- The graph well-formedness invariant (§3 of the spec): keys are distinct
(a Go map cannot hold a key twice), every referenced vertex is a key, and no
dependency list holds duplicates. -/
structure GraphInv (g : Graph) : Prop where
  keysNodup : (Graph.keys g).Nodup
  refsClosed : ∀ e ∈ g, ∀ u ∈ e.2, u ∈ Graph.keys g
  adjNodup : ∀ e ∈ g, e.2.Nodup

/-- Graphs reachable from `New` by `AddVertex`/`AddEdge` calls. -/
inductive Built : Graph → Prop
  | new : Built Graph.New
  | addVertex (g : Graph) (v : ObjMetadata) : Built g → Built (Graph.AddVertex g v)
  | addEdge (g : Graph) (frm toV : ObjMetadata) :
      Built g → Built (Graph.AddEdge g frm toV)

theorem GraphInv_New : GraphInv Graph.New :=
  ⟨List.nodup_nil, by simp [Graph.New], by simp [Graph.New]⟩

theorem GraphInv_AddVertex (g : Graph) (v : ObjMetadata) (h : GraphInv g) :
    GraphInv (Graph.AddVertex g v) := by
  by_cases hv : v ∈ Graph.keys g
  · rwa [Graph.AddVertex_of_mem g v hv]
  · rw [Graph.AddVertex_of_not_mem g v hv]
    refine ⟨?_, ?_, ?_⟩
    · rw [Graph.keys, List.map_append, List.nodup_append]
      refine ⟨h.keysNodup, by simp, ?_⟩
      intro a ha hb
      simp only [List.map_cons, List.map_nil, List.mem_singleton] at hb
      subst hb
      exact hv ha
    · intro e he u hu
      rw [Graph.keys, List.map_append]
      rcases List.mem_append.mp he with he | he
      · exact List.mem_append_left _ (h.refsClosed e he u hu)
      · simp at he
        rw [he] at hu
        simp at hu
    · intro e he
      rcases List.mem_append.mp he with he | he
      · exact h.adjNodup e he
      · simp at he
        rw [he]
        exact List.nodup_nil

theorem GraphInv_appendAdj (g : Graph) (frm toV : ObjMetadata) (h : GraphInv g)
    (htoV : toV ∈ Graph.keys g)
    (hadj : Graph.isAdjacent g frm toV = false) :
    GraphInv (Graph.appendAdj g frm toV) := by
  refine ⟨?_, ?_, ?_⟩
  · rw [Graph.keys_appendAdj]
    exact h.keysNodup
  · intro e he u hu
    rw [Graph.keys_appendAdj]
    unfold Graph.appendAdj at he
    rcases List.mem_map.mp he with ⟨e0, he0, hee0⟩
    by_cases h0 : e0.1 = frm
    · rw [if_pos h0] at hee0
      rw [← hee0] at hu
      simp only at hu
      rcases List.mem_append.mp hu with hu | hu
      · exact h.refsClosed e0 he0 u hu
      · simp at hu
        rw [hu]
        exact htoV
    · rw [if_neg h0] at hee0
      rw [← hee0] at hu
      exact h.refsClosed e0 he0 u hu
  · intro e he
    unfold Graph.appendAdj at he
    rcases List.mem_map.mp he with ⟨e0, he0, hee0⟩
    by_cases h0 : e0.1 = frm
    · rw [if_pos h0] at hee0
      rw [← hee0]
      simp only
      have hadj0 : Graph.adj g frm = some e0.2 := by
        have : (frm, e0.2) ∈ g := by
          have : e0 = (frm, e0.2) := by
            rw [← h0]
          rwa [← this]
        exact Graph.mem_adj g frm e0.2 h.keysNodup this
      have htoVnot : toV ∉ e0.2 := by
        rw [Graph.isAdjacent, hadj0] at hadj
        simpa using hadj
      simp [List.nodup_append, htoVnot]
      exact h.adjNodup e0 he0
    · rw [if_neg h0] at hee0
      rw [← hee0]
      exact h.adjNodup e0 he0

theorem GraphInv_AddEdge (g : Graph) (frm toV : ObjMetadata) (h : GraphInv g) :
    GraphInv (Graph.AddEdge g frm toV) := by
  rw [Graph.AddEdge_eq]
  have h2 : GraphInv (Graph.AddVertex (Graph.AddVertex g frm) toV) :=
    GraphInv_AddVertex _ _ (GraphInv_AddVertex _ _ h)
  by_cases ha : Graph.isAdjacent (Graph.AddVertex (Graph.AddVertex g frm) toV) frm toV
  · rwa [if_pos ha]
  · rw [if_neg ha]
    exact GraphInv_appendAdj _ _ _ h2 (Graph.mem_keys_AddVertex_self _ toV)
      (by simpa using ha)

theorem Built_inv (g : Graph) (h : Built g) : GraphInv g := by
  induction h with
  | new => exact GraphInv_New
  | addVertex g v _ ih => exact GraphInv_AddVertex g v ih
  | addEdge g frm toV _ ih => exact GraphInv_AddEdge g frm toV ih

/-- C7: after any sequence of `AddVertex`/`AddEdge` calls starting from
`New()`, every vertex referenced by any edge — the From vertex (the entry key)
as well as every To vertex in its dependency list — is itself a key of the
adjacency map (so it carries its own, possibly empty, dependency set), and no
dependency list contains duplicate entries. -/
theorem claim_C7 (g : Graph) (hB : Built g) :
    (∀ e ∈ g, e.1 ∈ Graph.keys g ∧ ∀ u ∈ e.2, u ∈ Graph.keys g) ∧
    (∀ e ∈ g, e.2.Nodup) := by
  have h := Built_inv g hB
  exact ⟨fun e he => ⟨List.mem_map.mpr ⟨e, he, rfl⟩, h.refsClosed e he⟩,
    h.adjNodup⟩

/-- Witness for C7: the graph `AddEdge (AddEdge New objA objB) objB objA` is
reachable by insertion calls, and the invariant holds for it. -/
theorem claim_C7_witness :
    Built (Graph.AddEdge (Graph.AddEdge Graph.New objA objB) objB objA) ∧
    (∀ e ∈ Graph.AddEdge (Graph.AddEdge Graph.New objA objB) objB objA,
      e.1 ∈ Graph.keys (Graph.AddEdge (Graph.AddEdge Graph.New objA objB) objB objA) ∧
      ∀ u ∈ e.2,
        u ∈ Graph.keys (Graph.AddEdge (Graph.AddEdge Graph.New objA objB) objB objA)) ∧
    (∀ e ∈ Graph.AddEdge (Graph.AddEdge Graph.New objA objB) objB objA, e.2.Nodup) :=
  have hB : Built (Graph.AddEdge (Graph.AddEdge Graph.New objA objB) objB objA) :=
    Built.addEdge _ objB objA (Built.addEdge _ objA objB Built.new)
  ⟨hB, claim_C7 _ hB⟩

/-- C4: `GetVertices` is sorted by the (group, kind, namespace, name) order
and enumerates exactly the vertex set; `GetEdges` is sorted by From then To
and enumerates exactly the edge set; and both outputs coincide for any two
graphs holding the same vertex and edge facts (so they are independent of
insertion order — and identical across repeated calls, the functions being
pure). -/
theorem claim_C4 (g₁ g₂ : Graph)
    (hv : (Graph.keys g₁).Perm (Graph.keys g₂))
    (he : (Graph.edgeList g₁).Perm (Graph.edgeList g₂)) :
    List.Sorted metaLEr (Graph.GetVertices g₁) ∧
    List.Sorted edgeLEr (Graph.GetEdges g₁) ∧
    (Graph.GetVertices g₁).Perm (Graph.keys g₁) ∧
    (Graph.GetEdges g₁).Perm (Graph.edgeList g₁) ∧
    Graph.GetVertices g₁ = Graph.GetVertices g₂ ∧
    Graph.GetEdges g₁ = Graph.GetEdges g₂ := by
  have hs1 : List.Sorted metaLEr (Graph.GetVertices g₁) :=
    List.sorted_insertionSort metaLEr (Graph.keys g₁)
  have hs1b : List.Sorted metaLEr (Graph.GetVertices g₂) :=
    List.sorted_insertionSort metaLEr (Graph.keys g₂)
  have hs2 : List.Sorted edgeLEr (Graph.GetEdges g₁) :=
    List.sorted_insertionSort edgeLEr (Graph.edgeList g₁)
  have hs2b : List.Sorted edgeLEr (Graph.GetEdges g₂) :=
    List.sorted_insertionSort edgeLEr (Graph.edgeList g₂)
  have hp1 : (Graph.GetVertices g₁).Perm (Graph.keys g₁) :=
    List.perm_insertionSort metaLEr (Graph.keys g₁)
  have hp2 : (Graph.GetEdges g₁).Perm (Graph.edgeList g₁) :=
    List.perm_insertionSort edgeLEr (Graph.edgeList g₁)
  refine ⟨hs1, hs2, hp1, hp2, ?_, ?_⟩
  · exact List.eq_of_perm_of_sorted
      (hp1.trans (hv.trans (List.perm_insertionSort metaLEr (Graph.keys g₂)).symm))
      hs1 hs1b
  · exact List.eq_of_perm_of_sorted
      (hp2.trans (he.trans (List.perm_insertionSort edgeLEr (Graph.edgeList g₂)).symm))
      hs2 hs2b

/-- Witness for C4: the same vertex and edge facts inserted in two different
orders yield permuted internal storage but identical enumerations. -/
theorem claim_C4_witness :
    (Graph.keys (Graph.AddEdge (Graph.AddEdge Graph.New objA objB) objC objD)).Perm
      (Graph.keys (Graph.AddEdge (Graph.AddEdge Graph.New objC objD) objA objB)) ∧
    (Graph.edgeList (Graph.AddEdge (Graph.AddEdge Graph.New objA objB) objC objD)).Perm
      (Graph.edgeList (Graph.AddEdge (Graph.AddEdge Graph.New objC objD) objA objB)) ∧
    Graph.GetVertices (Graph.AddEdge (Graph.AddEdge Graph.New objA objB) objC objD) =
      Graph.GetVertices (Graph.AddEdge (Graph.AddEdge Graph.New objC objD) objA objB) ∧
    Graph.GetEdges (Graph.AddEdge (Graph.AddEdge Graph.New objA objB) objC objD) =
      Graph.GetEdges (Graph.AddEdge (Graph.AddEdge Graph.New objC objD) objA objB) :=
  ⟨by decide, by decide,
    (claim_C4 _ _ (by decide) (by decide)).2.2.2.2.1,
    (claim_C4 _ _ (by decide) (by decide)).2.2.2.2.2⟩

/-- The combined effect of removing a batch of vertices one after the other:
drop every entry whose key is in the batch, and drop the batch's members from
every remaining adjacency list. -/
def Graph.removeAll (g : Graph) (L : List ObjMetadata) : Graph :=
  (g.filter (fun e => !decide (e.1 ∈ L))).map
    (fun e => (e.1, e.2.filter (fun u => !decide (u ∈ L))))

theorem Graph.removeAll_nil (g : Graph) : Graph.removeAll g [] = g := by
  unfold Graph.removeAll
  simp

theorem map_filter_congr {α β : Type} (f₁ f₂ : α → β) (p₁ p₂ : α → Bool)
    (l : List α) (hp : ∀ x ∈ l, p₁ x = p₂ x)
    (hf : ∀ x ∈ l, p₁ x = true → f₁ x = f₂ x) :
    (l.filter p₁).map f₁ = (l.filter p₂).map f₂ := by
  rw [← List.filter_congr hp]
  apply List.map_congr_left
  intro x hx
  rcases List.mem_filter.mp hx with ⟨hxl, hpx⟩
  exact hf x hxl hpx

theorem Graph.removeAll_cons (g : Graph) (a : ObjMetadata) (L : List ObjMetadata) :
    Graph.removeAll (Graph.removeVertex g a) L = Graph.removeAll g (a :: L) := by
  unfold Graph.removeAll Graph.removeVertex ObjMetadataSet.Remove
  simp only [List.filter_filter, List.filter_map, List.map_map]
  apply map_filter_congr
  · intro e _
    by_cases h1 : e.1 = a <;> by_cases h2 : e.1 ∈ L <;>
      simp [Function.comp, h1, h2]
  · intro e _ _
    simp only [Function.comp]
    rw [List.filter_filter]
    congr 1
    apply List.filter_congr
    intro u _
    by_cases h1 : u = a <;> by_cases h2 : u ∈ L <;> simp [h1, h2]

theorem Graph.foldl_removeVertex (L : List ObjMetadata) (g : Graph) :
    L.foldl Graph.removeVertex g = Graph.removeAll g L := by
  induction L generalizing g with
  | nil => exact (Graph.removeAll_nil g).symm
  | cons a L ih => rw [List.foldl_cons, ih, Graph.removeAll_cons]

theorem Graph.step_eq (g : Graph) :
    Graph.step g = Graph.removeAll g (Graph.leafVertices g) :=
  Graph.foldl_removeVertex _ g

theorem Graph.keys_removeAll (g : Graph) (L : List ObjMetadata) :
    Graph.keys (Graph.removeAll g L) =
      (Graph.keys g).filter (fun v => !decide (v ∈ L)) := by
  unfold Graph.keys Graph.removeAll
  rw [List.map_map, List.filter_map]
  have hfil : List.filter ((fun v => !decide (v ∈ L)) ∘ Prod.fst) g =
      List.filter (fun e : ObjMetadata × ObjMetadataSet => !decide (e.1 ∈ L)) g := by
    apply List.filter_congr
    intro e _
    rfl
  rw [hfil]
  apply List.map_congr_left
  intro e _
  rfl

theorem Graph.adj_removeAll (g : Graph) (L : List ObjMetadata) (v : ObjMetadata) :
    Graph.adj (Graph.removeAll g L) v =
      if v ∈ L then none
      else (Graph.adj g v).map (fun l => l.filter (fun u => !decide (u ∈ L))) := by
  induction g with
  | nil =>
    unfold Graph.removeAll
    by_cases h : v ∈ L <;> simp [Graph.adj, h]
  | cons e es ih =>
    unfold Graph.removeAll at ih ⊢
    rw [List.filter_cons]
    by_cases h1 : e.1 ∈ L
    · rw [if_neg (by simp [h1])]
      rw [ih]
      by_cases h2 : v ∈ L
      · simp [h2]
      · have hne : ¬ e.1 = v := fun hc => h2 (hc ▸ h1)
        simp [h2, Graph.adj, hne]
    · rw [if_pos (by simp [h1])]
      rw [List.map_cons, Graph.adj]
      by_cases h2 : e.1 = v
      · rw [if_pos (by simpa using h2)]
        subst h2
        simp [Graph.adj, h1]
      · rw [if_neg (by simpa using h2), ih]
        by_cases h3 : v ∈ L
        · simp [h3]
        · simp [h3, Graph.adj, h2]

theorem Graph.length_removeAll_le (g : Graph) (L : List ObjMetadata) :
    (Graph.removeAll g L).length ≤ g.length := by
  unfold Graph.removeAll
  rw [List.length_map]
  exact List.length_filter_le _ g

theorem Graph.length_removeAll_lt (g : Graph) (L : List ObjMetadata)
    (h : ∃ e ∈ g, e.1 ∈ L) :
    (Graph.removeAll g L).length < g.length := by
  unfold Graph.removeAll
  rw [List.length_map]
  rw [List.length_filter_lt_length_iff_exists]
  rcases h with ⟨e, he, hm⟩
  exact ⟨e, he, by simp [hm]⟩

theorem Graph.mem_leafVertices (g : Graph) (v : ObjMetadata) :
    v ∈ Graph.leafVertices g ↔ (v, []) ∈ g := by
  unfold Graph.leafVertices
  constructor
  · intro h
    rcases List.mem_map.mp h with ⟨e, he, hev⟩
    rcases List.mem_filter.mp he with ⟨heg, hemp⟩
    have : e.2 = [] := by simpa [List.isEmpty_iff] using hemp
    have : e = (v, []) := by
      cases e
      simp_all
    rwa [← this]
  · intro h
    exact List.mem_map.mpr ⟨(v, []), List.mem_filter.mpr ⟨h, by simp⟩, rfl⟩

theorem Graph.leafVertices_eq_nil_iff (g : Graph) :
    Graph.leafVertices g = [] ↔ ∀ e ∈ g, e.2 ≠ [] := by
  unfold Graph.leafVertices
  rw [List.map_eq_nil_iff, List.filter_eq_nil_iff]
  constructor
  · intro h e he hc
    exact h e he (by simp [hc])
  · intro h e he hc
    exact h e he (by simpa [List.isEmpty_iff] using hc)

theorem GraphInv_removeAll (g : Graph) (L : List ObjMetadata) (h : GraphInv g) :
    GraphInv (Graph.removeAll g L) := by
  refine ⟨?_, ?_, ?_⟩
  · rw [Graph.keys_removeAll]
    exact (List.filter_sublist _).nodup h.keysNodup
  · intro e' he' u hu
    unfold Graph.removeAll at he'
    rcases List.mem_map.mp he' with ⟨e, he, hee⟩
    rcases List.mem_filter.mp he with ⟨heg, hkey⟩
    rw [← hee] at hu
    simp only at hu
    rcases List.mem_filter.mp hu with ⟨hue, huL⟩
    rw [Graph.keys_removeAll]
    rw [List.mem_filter]
    exact ⟨h.refsClosed e heg u hue, huL⟩
  · intro e' he'
    unfold Graph.removeAll at he'
    rcases List.mem_map.mp he' with ⟨e, he, hee⟩
    rcases List.mem_filter.mp he with ⟨heg, _⟩
    rw [← hee]
    exact ((List.filter_sublist _).nodup (h.adjNodup e heg))

theorem Graph.sortFuel_succ (fuel : Nat) (g : Graph) :
    Graph.sortFuel (fuel+1) g =
      if Graph.Size g = 0 then ([], g, none)
      else if (Graph.leafVertices g).isEmpty then
        ([], g, some ⟨⟨Graph.GetEdges g⟩, Graph.GetVertices g⟩)
      else
        (Graph.leafVertices g :: (Graph.sortFuel fuel (Graph.step g)).1,
          (Graph.sortFuel fuel (Graph.step g)).2) := rfl

theorem Graph.length_step_lt (g : Graph) (h : Graph.leafVertices g ≠ []) :
    (Graph.step g).length < g.length := by
  rw [Graph.step_eq]
  apply Graph.length_removeAll_lt
  rcases List.exists_mem_of_ne_nil _ h with ⟨v, hv⟩
  exact ⟨(v, []), (Graph.mem_leafVertices g v).mp hv, by simpa using hv⟩

theorem Graph.keysNodup_step (g : Graph) (hnd : (Graph.keys g).Nodup) :
    (Graph.keys (Graph.step g)).Nodup := by
  rw [Graph.step_eq, Graph.keys_removeAll]
  exact (List.filter_sublist _).nodup hnd

theorem Graph.leafVertices_eq_filter (g : Graph) (hnd : (Graph.keys g).Nodup) :
    Graph.leafVertices g =
      (Graph.keys g).filter (fun v => decide (v ∈ Graph.leafVertices g)) := by
  unfold Graph.keys
  rw [List.filter_map]
  conv_lhs => rw [Graph.leafVertices]
  congr 1
  apply List.filter_congr
  intro e he
  simp only [Function.comp]
  by_cases h : e.2 = []
  · have h1 : e.1 ∈ Graph.leafVertices g :=
      (Graph.mem_leafVertices g e.1).mpr (by rw [← h]; exact he)
    simp [h, h1]
  · have h1 : e.1 ∉ Graph.leafVertices g := by
      intro hc
      have h2 := Graph.mem_adj g e.1 [] hnd ((Graph.mem_leafVertices g e.1).mp hc)
      have h3 := Graph.mem_adj g e.1 e.2 hnd he
      rw [h2] at h3
      injection h3 with h4
      exact h h4.symm
    simp [h, h1]

theorem Graph.leaf_split_perm (g : Graph) (hnd : (Graph.keys g).Nodup) :
    (Graph.leafVertices g ++ Graph.keys (Graph.step g)).Perm (Graph.keys g) := by
  rw [Graph.step_eq, Graph.keys_removeAll]
  have heq : Graph.leafVertices g ++
      (Graph.keys g).filter (fun v => !decide (v ∈ Graph.leafVertices g)) =
      (Graph.keys g).filter (fun v => decide (v ∈ Graph.leafVertices g)) ++
      (Graph.keys g).filter (fun v => !decide (v ∈ Graph.leafVertices g)) := by
    rw [← Graph.leafVertices_eq_filter g hnd]
  rw [heq]
  exact List.filter_append_perm _ _

theorem Graph.sortFuel_perm (fuel : Nat) (g : Graph) (hnd : (Graph.keys g).Nodup) :
    ((Graph.sortFuel fuel g).1.flatten ++
      Graph.keys (Graph.sortFuel fuel g).2.1).Perm (Graph.keys g) := by
  induction fuel generalizing g with
  | zero => simp [Graph.sortFuel]
  | succ fuel ih =>
    rw [Graph.sortFuel_succ]
    by_cases h0 : Graph.Size g = 0
    · simp [h0]
    · rw [if_neg h0]
      by_cases h1 : (Graph.leafVertices g).isEmpty
      · simp [h1]
      · rw [if_neg h1]
        simp only [List.flatten_cons, List.append_assoc]
        exact (List.Perm.append_left _
          (ih (Graph.step g) (Graph.keysNodup_step g hnd))).trans
          (Graph.leaf_split_perm g hnd)

theorem Graph.sortFuel_success_residual (fuel : Nat) (g : Graph)
    (hf : g.length ≤ fuel) :
    (Graph.sortFuel fuel g).2.2 = none → (Graph.sortFuel fuel g).2.1 = [] := by
  induction fuel generalizing g with
  | zero =>
    intro _
    simpa using List.length_eq_zero.mp (Nat.le_zero.mp hf)
  | succ fuel ih =>
    rw [Graph.sortFuel_succ]
    by_cases h0 : Graph.Size g = 0
    · intro _
      simpa [h0] using List.length_eq_zero.mp h0
    · rw [if_neg h0]
      by_cases h1 : (Graph.leafVertices g).isEmpty
      · simp [h1]
      · rw [if_neg h1]
        intro h2
        simp only at h2 ⊢
        have hlt : (Graph.step g).length < g.length :=
          Graph.length_step_lt g (by simpa using h1)
        exact ih (Graph.step g) (by omega) h2

theorem Graph.sortFuel_layers (fuel : Nat) (g : Graph) (hf : g.length ≤ fuel) :
    (∀ l ∈ (Graph.sortFuel fuel g).1, l ≠ []) ∧
    (Graph.sortFuel fuel g).1.length ≤ g.length := by
  induction fuel generalizing g with
  | zero => simp [Graph.sortFuel]
  | succ fuel ih =>
    rw [Graph.sortFuel_succ]
    by_cases h0 : Graph.Size g = 0
    · simp [h0]
    · rw [if_neg h0]
      by_cases h1 : (Graph.leafVertices g).isEmpty
      · simp [h1]
      · rw [if_neg h1]
        simp only [List.mem_cons, List.length_cons]
        have hlt : (Graph.step g).length < g.length :=
          Graph.length_step_lt g (by simpa using h1)
        have := ih (Graph.step g) (by omega)
        constructor
        · intro l hl
          rcases hl with hl | hl
          · rw [hl]
            simpa using h1
          · exact this.1 l hl
        · omega

theorem Graph.sortFuel_err (fuel : Nat) (g : Graph) (hf : g.length ≤ fuel)
    (e : ValidationError) (he : (Graph.sortFuel fuel g).2.2 = some e) :
    ∃ n : Nat,
      (Graph.sortFuel fuel g).2.1 = Graph.step^[n] g ∧
      (Graph.sortFuel fuel g).1 =
        (List.range n).map (fun i => Graph.leafVertices (Graph.step^[i] g)) ∧
      (∀ i < n, Graph.leafVertices (Graph.step^[i] g) ≠ []) ∧
      Graph.leafVertices (Graph.sortFuel fuel g).2.1 = [] ∧
      (Graph.sortFuel fuel g).2.1 ≠ [] ∧
      e.err.Edges = Graph.GetEdges (Graph.sortFuel fuel g).2.1 ∧
      e.ids = Graph.GetVertices (Graph.sortFuel fuel g).2.1 := by
  induction fuel generalizing g with
  | zero => simp [Graph.sortFuel] at he
  | succ fuel ih =>
    rw [Graph.sortFuel_succ] at he ⊢
    by_cases h0 : Graph.Size g = 0
    · simp [h0] at he
    · rw [if_neg h0] at he ⊢
      by_cases h1 : (Graph.leafVertices g).isEmpty
      · rw [if_pos h1] at he ⊢
        simp only [Option.some_inj] at he
        refine ⟨0, by simp, by simp, by simp, ?_, ?_, ?_, ?_⟩
        · simpa [List.isEmpty_iff] using h1
        · intro hc
          have hc2 : g = [] := hc
          exact h0 (by simp [Graph.Size, hc2])
        · rw [← he]
        · rw [← he]
      · rw [if_neg h1] at he ⊢
        simp only at he ⊢
        have hlt : (Graph.step g).length < g.length :=
          Graph.length_step_lt g (by simpa using h1)
        rcases ih (Graph.step g) (by omega) he with
          ⟨n, hres, hlay, hpos, hleaf, hne, hE, hV⟩
        refine ⟨n + 1, ?_, ?_, ?_, hleaf, hne, hE, hV⟩
        · rw [hres, Function.iterate_succ_apply]
        · rw [hlay, List.range_succ_eq_map]
          simp only [List.map_cons, List.map_map, Function.iterate_zero_apply,
            Function.comp_def, Function.iterate_succ_apply]
        · intro i hi
          cases i with
          | zero =>
            rw [Function.iterate_zero_apply]
            simpa using h1
          | succ i =>
            rw [Function.iterate_succ_apply]
            exact hpos i (by omega)

/-- C10: `Sort` terminates on every finite graph: each executed pass removes
at least one vertex (the leaf batch is non-empty, so `Size` strictly
decreases), every layer appended to the output is non-empty, and the number
of layers is bounded by the vertex count. -/
theorem claim_C10 (g : Graph) :
    (Graph.leafVertices g ≠ [] → Graph.Size (Graph.step g) < Graph.Size g) ∧
    (∀ l ∈ (Graph.topoSort g).1, l ≠ []) ∧
    (Graph.topoSort g).1.length ≤ Graph.Size g :=
  ⟨Graph.length_step_lt g,
    (Graph.sortFuel_layers (Graph.Size g) g le_rfl).1,
    (Graph.sortFuel_layers (Graph.Size g) g le_rfl).2⟩

/-- Witness for C10 at a concrete graph with one edge: the pass removes a
vertex, and the layer bound holds. -/
theorem claim_C10_witness :
    Graph.leafVertices (Graph.AddEdge Graph.New objA objB) ≠ [] ∧
    Graph.Size (Graph.step (Graph.AddEdge Graph.New objA objB)) <
      Graph.Size (Graph.AddEdge Graph.New objA objB) :=
  ⟨by decide, (claim_C10 (Graph.AddEdge Graph.New objA objB)).1 (by decide)⟩

/-- C8: `Sort` consumes its graph. On success the residual graph is empty
(`Size` 0); on a cyclic-dependency failure the residual graph is left
non-empty (no rollback) and carries exactly the vertices and edges reported
in the diagnostic. -/
theorem claim_C8 (g : Graph) :
    ((Graph.topoSort g).2.2 = none → Graph.Size (Graph.topoSort g).2.1 = 0) ∧
    (∀ e : ValidationError, (Graph.topoSort g).2.2 = some e →
      (Graph.topoSort g).2.1 ≠ [] ∧
      e.ids = Graph.GetVertices (Graph.topoSort g).2.1 ∧
      e.err.Edges = Graph.GetEdges (Graph.topoSort g).2.1) := by
  constructor
  · intro h
    have hres := Graph.sortFuel_success_residual (Graph.Size g) g le_rfl h
    show Graph.Size (Graph.sortFuel (Graph.Size g) g).2.1 = 0
    rw [hres]
    rfl
  · intro e he
    rcases Graph.sortFuel_err (Graph.Size g) g le_rfl e he with
      ⟨n, _, _, _, _, hne, hE, hV⟩
    exact ⟨hne, hV, hE⟩

/-- Witness for C8: a successful sort leaves an empty graph; the self-edge
graph fails and its residual carries the reported vertex and edge. -/
theorem claim_C8_witness :
    Graph.Size (Graph.topoSort (Graph.AddEdge Graph.New objA objB)).2.1 = 0 ∧
    ((Graph.topoSort (Graph.AddEdge Graph.New objA objA)).2.1 ≠ [] ∧
      (⟨⟨[⟨objA, objA⟩]⟩, [objA]⟩ : ValidationError).ids =
        Graph.GetVertices (Graph.topoSort (Graph.AddEdge Graph.New objA objA)).2.1 ∧
      (⟨⟨[⟨objA, objA⟩]⟩, [objA]⟩ : ValidationError).err.Edges =
        Graph.GetEdges (Graph.topoSort (Graph.AddEdge Graph.New objA objA)).2.1) :=
  ⟨(claim_C8 (Graph.AddEdge Graph.New objA objB)).1 (by decide),
   (claim_C8 (Graph.AddEdge Graph.New objA objA)).2
     ⟨⟨[⟨objA, objA⟩]⟩, [objA]⟩ (by decide)⟩

/-- C3: when a pass finds no leaf on a non-empty graph, `Sort` stops at once:
for some pass count `n`, the returned layers are exactly the (non-empty) leaf
batches of the first `n` passes, the residual graph is the graph after those
passes — non-empty and leafless — and the failure carries exactly the
residual graph's edges and vertices; no further layers are computed. -/
theorem claim_C3 (g : Graph) (layers : List ObjMetadataSet) (gres : Graph)
    (e : ValidationError) (h : Graph.topoSort g = (layers, gres, some e)) :
    Graph.leafVertices gres = [] ∧ gres ≠ [] ∧
    e.err.Edges = Graph.GetEdges gres ∧ e.ids = Graph.GetVertices gres ∧
    ∃ n : Nat, gres = Graph.step^[n] g ∧
      layers =
        (List.range n).map (fun i => Graph.leafVertices (Graph.step^[i] g)) ∧
      ∀ i < n, Graph.leafVertices (Graph.step^[i] g) ≠ [] := by
  rw [Graph.topoSort] at h
  have he : (Graph.sortFuel (Graph.Size g) g).2.2 = some e := by rw [h]
  rcases Graph.sortFuel_err (Graph.Size g) g le_rfl e he with
    ⟨n, hres, hlay, hpos, hleaf, hne, hE, hV⟩
  rw [h] at hres hlay hleaf hne hE hV
  exact ⟨hleaf, hne, hE, hV, n, hres, hlay, hpos⟩

/-- The two-vertex cycle used as a concrete failing input. -/
def gCycle : Graph := Graph.AddEdge (Graph.AddEdge Graph.New objA objB) objB objA

/-- The diagnostic `Sort` produces on `gCycle`. -/
def eCycle : ValidationError := ⟨⟨Graph.GetEdges gCycle⟩, Graph.GetVertices gCycle⟩

/-- Witness for C3 on the pure 2-cycle: no layer is produced, the residual
graph is the whole cycle, and the diagnostic names its edges and vertices. -/
theorem claim_C3_witness :
    Graph.leafVertices gCycle = [] ∧ gCycle ≠ [] ∧
    eCycle.err.Edges = Graph.GetEdges gCycle ∧
    eCycle.ids = Graph.GetVertices gCycle ∧
    ∃ n : Nat, gCycle = Graph.step^[n] gCycle ∧
      ([] : List ObjMetadataSet) =
        (List.range n).map (fun i => Graph.leafVertices (Graph.step^[i] gCycle)) ∧
      ∀ i < n, Graph.leafVertices (Graph.step^[i] gCycle) ≠ [] :=
  claim_C3 gCycle [] gCycle eCycle (by decide)

theorem Graph.isAdjacent_mem_keys (g : Graph) (a b : ObjMetadata)
    (h : Graph.isAdjacent g a b = true) : a ∈ Graph.keys g := by
  rw [Graph.isAdjacent] at h
  rcases ho : Graph.adj g a with _ | l
  · rw [ho] at h; simp at h
  · exact (Graph.adj_isSome_iff g a).mp (by rw [ho]; rfl)

theorem Graph.mem_edgeList_of_isAdjacent (g : Graph) (a b : ObjMetadata)
    (h : Graph.isAdjacent g a b = true) : (⟨a, b⟩ : Edge) ∈ Graph.edgeList g := by
  rw [Graph.isAdjacent] at h
  rcases ho : Graph.adj g a with _ | l
  · rw [ho] at h; simp at h
  · rw [ho] at h
    simp only [decide_eq_true_eq] at h
    unfold Graph.edgeList
    exact List.mem_flatMap.mpr
      ⟨(a, l), Graph.adj_mem g a l ho, List.mem_map.mpr ⟨b, h, rfl⟩⟩

theorem Graph.selfEdge_not_leaf (g : Graph) (z : ObjMetadata)
    (hnd : (Graph.keys g).Nodup) (h : Graph.isAdjacent g z z = true) :
    z ∉ Graph.leafVertices g := by
  intro hc
  rw [Graph.isAdjacent] at h
  rcases ho : Graph.adj g z with _ | l
  · rw [ho] at h; simp at h
  · rw [ho] at h
    have h2 := Graph.mem_adj g z [] hnd ((Graph.mem_leafVertices g z).mp hc)
    rw [ho] at h2
    injection h2 with h2
    rw [h2] at h
    simp at h

theorem Graph.selfEdge_step (g : Graph) (z : ObjMetadata)
    (hnd : (Graph.keys g).Nodup) (h : Graph.isAdjacent g z z = true) :
    Graph.isAdjacent (Graph.step g) z z = true := by
  have hz : z ∉ Graph.leafVertices g := Graph.selfEdge_not_leaf g z hnd h
  rw [Graph.isAdjacent] at h
  rcases ho : Graph.adj g z with _ | l
  · rw [ho] at h; simp at h
  · rw [ho] at h
    simp only [decide_eq_true_eq] at h
    rw [Graph.step_eq, Graph.isAdjacent, Graph.adj_removeAll, if_neg hz, ho]
    show decide (z ∈ l.filter (fun u => !decide (u ∈ Graph.leafVertices g))) = true
    rw [decide_eq_true_eq]
    exact List.mem_filter.mpr ⟨h, by simpa using hz⟩

theorem Graph.sortFuel_selfEdge (fuel : Nat) (g : Graph) (z : ObjMetadata)
    (hf : g.length ≤ fuel) (hnd : (Graph.keys g).Nodup)
    (h : Graph.isAdjacent g z z = true) :
    (∀ l ∈ (Graph.sortFuel fuel g).1, z ∉ l) ∧
    ∃ e : ValidationError, (Graph.sortFuel fuel g).2.2 = some e ∧
      z ∈ e.ids ∧ (⟨z, z⟩ : Edge) ∈ e.err.Edges := by
  induction fuel generalizing g with
  | zero =>
    exfalso
    have hg : g = [] := List.length_eq_zero.mp (Nat.le_zero.mp hf)
    rw [hg] at h
    simp [Graph.isAdjacent, Graph.adj] at h
  | succ fuel ih =>
    rw [Graph.sortFuel_succ]
    have hzk : z ∈ Graph.keys g := Graph.isAdjacent_mem_keys g z z h
    by_cases h0 : Graph.Size g = 0
    · exfalso
      have hg : g = [] := List.length_eq_zero.mp h0
      rw [hg] at hzk
      simp [Graph.keys] at hzk
    · rw [if_neg h0]
      by_cases h1 : (Graph.leafVertices g).isEmpty
      · rw [if_pos h1]
        refine ⟨by simp, ⟨⟨Graph.GetEdges g⟩, Graph.GetVertices g⟩, rfl, ?_, ?_⟩
        · exact ((List.perm_insertionSort metaLEr (Graph.keys g)).mem_iff).mpr hzk
        · exact ((List.perm_insertionSort edgeLEr (Graph.edgeList g)).mem_iff).mpr
            (Graph.mem_edgeList_of_isAdjacent g z z h)
      · rw [if_neg h1]
        have hlt := Graph.length_step_lt g (by simpa using h1)
        have hnd2 := Graph.keysNodup_step g hnd
        have h2 := Graph.selfEdge_step g z hnd h
        rcases ih (Graph.step g) (by omega) hnd2 h2 with ⟨hlayers, e, he, hze, hzE⟩
        refine ⟨?_, e, he, hze, hzE⟩
        intro l hl
        rcases List.mem_cons.mp hl with hl | hl
        · rw [hl]
          exact Graph.selfEdge_not_leaf g z hnd h
        · exact hlayers l hl

/-- C6: a self-edge can never be resolved: for a graph reachable by insertion
calls that contains the edge `z -> z`, `Sort` places `z` in no layer, and it
fails with a diagnostic whose residual vertices include `z` and whose residual
edges include `z -> z`. -/
theorem claim_C6 (g : Graph) (z : ObjMetadata) (hB : Built g)
    (h : Graph.isAdjacent g z z = true) :
    (∀ l ∈ (Graph.topoSort g).1, z ∉ l) ∧
    ∃ e : ValidationError, (Graph.topoSort g).2.2 = some e ∧
      z ∈ e.ids ∧ (⟨z, z⟩ : Edge) ∈ e.err.Edges :=
  Graph.sortFuel_selfEdge (Graph.Size g) g z le_rfl (Built_inv g hB).keysNodup h

/-- Witness for C6 on the one-vertex self-loop `AddEdge New objA objA`. -/
theorem claim_C6_witness :
    Graph.isAdjacent (Graph.AddEdge Graph.New objA objA) objA objA = true ∧
    ((∀ l ∈ (Graph.topoSort (Graph.AddEdge Graph.New objA objA)).1, objA ∉ l) ∧
      ∃ e : ValidationError,
        (Graph.topoSort (Graph.AddEdge Graph.New objA objA)).2.2 = some e ∧
        objA ∈ e.ids ∧ (⟨objA, objA⟩ : Edge) ∈ e.err.Edges) :=
  ⟨by decide, claim_C6 (Graph.AddEdge Graph.New objA objA) objA
    (Built.addEdge Graph.New objA objA Built.new) (by decide)⟩

/-- The depends-on edge relation of a graph. -/
def Graph.Rel (g : Graph) (a b : ObjMetadata) : Prop :=
  Graph.isAdjacent g a b = true

/-- The edge set is acyclic: no vertex transitively depends on itself. -/
def Graph.Acyclic (g : Graph) : Prop :=
  ∀ v, ¬ Relation.TransGen (Graph.Rel g) v v

theorem Graph.Rel_step (g : Graph) (a b : ObjMetadata)
    (h : Graph.Rel (Graph.step g) a b) : Graph.Rel g a b := by
  unfold Graph.Rel Graph.isAdjacent at h ⊢
  rw [Graph.step_eq, Graph.adj_removeAll] at h
  by_cases h1 : a ∈ Graph.leafVertices g
  · rw [if_pos h1] at h
    simp at h
  · rw [if_neg h1] at h
    rcases ho : Graph.adj g a with _ | l
    · rw [ho] at h
      simp at h
    · rw [ho] at h
      have h2 : decide
          (b ∈ l.filter (fun u => !decide (u ∈ Graph.leafVertices g))) = true := h
      rw [decide_eq_true_eq] at h2
      show decide (b ∈ l) = true
      exact decide_eq_true (List.mem_filter.mp h2).1

theorem Graph.Acyclic_step (g : Graph) (hA : Graph.Acyclic g) :
    Graph.Acyclic (Graph.step g) :=
  fun v hc =>
    hA v (Relation.TransGen.mono (fun x y h => Graph.Rel_step g x y h) hc)

/-- A canonical outgoing neighbour: the head of the adjacency list, when one
exists. -/
def Graph.next (g : Graph) (v : ObjMetadata) : ObjMetadata :=
  match Graph.adj g v with
  | some (u :: _) => u
  | _ => v

theorem Graph.next_spec (g : Graph) (v : ObjMetadata)
    (hclosed : ∀ e ∈ g, ∀ u ∈ e.2, u ∈ Graph.keys g)
    (hleaf : Graph.leafVertices g = []) (hv : v ∈ Graph.keys g) :
    Graph.Rel g v (Graph.next g v) ∧ Graph.next g v ∈ Graph.keys g := by
  rcases ho : Graph.adj g v with _ | l
  · exact absurd ((Graph.adj_eq_none_iff g v).mp ho) (by simp [hv])
  · cases l with
    | nil =>
      exfalso
      have : v ∈ Graph.leafVertices g :=
        (Graph.mem_leafVertices g v).mpr (Graph.adj_mem g v [] ho)
      rw [hleaf] at this
      simp at this
    | cons u us =>
      have hnext : Graph.next g v = u := by
        unfold Graph.next
        rw [ho]
      refine ⟨?_, ?_⟩
      · unfold Graph.Rel Graph.isAdjacent
        rw [ho, hnext]
        simp
      · rw [hnext]
        exact hclosed (v, u :: us) (Graph.adj_mem g v _ ho) u (by simp)

theorem Graph.next_iter_mem (g : Graph)
    (hclosed : ∀ e ∈ g, ∀ u ∈ e.2, u ∈ Graph.keys g)
    (hleaf : Graph.leafVertices g = []) (n : Nat) (v : ObjMetadata)
    (hv : v ∈ Graph.keys g) : (Graph.next g)^[n] v ∈ Graph.keys g := by
  induction n generalizing v with
  | zero => simpa using hv
  | succ n ih =>
    rw [Function.iterate_succ_apply]
    exact ih (Graph.next g v) (Graph.next_spec g v hclosed hleaf hv).2

theorem Graph.next_iter_transGen (g : Graph)
    (hclosed : ∀ e ∈ g, ∀ u ∈ e.2, u ∈ Graph.keys g)
    (hleaf : Graph.leafVertices g = []) (n : Nat) (v : ObjMetadata)
    (hv : v ∈ Graph.keys g) (hn : 0 < n) :
    Relation.TransGen (Graph.Rel g) v ((Graph.next g)^[n] v) := by
  induction n with
  | zero => omega
  | succ n ih =>
    rcases Nat.eq_zero_or_pos n with h | h
    · subst h
      rw [Function.iterate_one]
      exact Relation.TransGen.single (Graph.next_spec g v hclosed hleaf hv).1
    · have htg := ih h
      have hmem : (Graph.next g)^[n] v ∈ Graph.keys g :=
        Graph.next_iter_mem g hclosed hleaf n v hv
      rw [Function.iterate_succ_apply']
      exact Relation.TransGen.tail htg
        (Graph.next_spec g _ hclosed hleaf hmem).1

theorem Graph.no_leaf_cycle (g : Graph)
    (hclosed : ∀ e ∈ g, ∀ u ∈ e.2, u ∈ Graph.keys g)
    (hnd : (Graph.keys g).Nodup)
    (hne : g ≠ []) (hleaf : Graph.leafVertices g = []) :
    ∃ v, Relation.TransGen (Graph.Rel g) v v := by
  have hk : ∃ v0, v0 ∈ Graph.keys g := by
    cases g with
    | nil => exact absurd rfl hne
    | cons e es => exact ⟨e.1, by simp [Graph.keys]⟩
  rcases hk with ⟨v0, hv0⟩
  have hkeyslen : (Graph.keys g).length = g.length := by
    simp [Graph.keys]
  have hsub : ∀ x ∈ (List.range (g.length + 1)).map
      (fun i => (Graph.next g)^[i] v0), x ∈ Graph.keys g := by
    intro x hx
    rcases List.mem_map.mp hx with ⟨i, _, hi⟩
    rw [← hi]
    exact Graph.next_iter_mem g hclosed hleaf i v0 hv0
  have hnotnodup : ¬ ((List.range (g.length + 1)).map
      (fun i => (Graph.next g)^[i] v0)).Nodup := by
    intro hdup
    have hle := (hdup.subperm (fun x hx => hsub x hx)).length_le
    rw [List.length_map, List.length_range, hkeyslen] at hle
    omega
  have hdupex : ∃ i ∈ List.range (g.length + 1), ∃ j ∈ List.range (g.length + 1),
      (Graph.next g)^[i] v0 = (Graph.next g)^[j] v0 ∧ i ≠ j := by
    by_contra hc
    push_neg at hc
    exact hnotnodup (List.Nodup.map_on
      (fun i hi j hj hij => hc i hi j hj hij) (List.nodup_range _))
  rcases hdupex with ⟨i, _, j, _, heq, hij⟩
  suffices haux : ∀ i j : Nat, i < j →
      (Graph.next g)^[i] v0 = (Graph.next g)^[j] v0 →
      ∃ v, Relation.TransGen (Graph.Rel g) v v by
    rcases Nat.lt_or_ge i j with h | h
    · exact haux i j h heq
    · exact haux j i (by omega) heq.symm
  intro i j hij2 heq2
  refine ⟨(Graph.next g)^[i] v0, ?_⟩
  have hmem : (Graph.next g)^[i] v0 ∈ Graph.keys g :=
    Graph.next_iter_mem g hclosed hleaf i v0 hv0
  have htg := Graph.next_iter_transGen g hclosed hleaf (j - i)
    ((Graph.next g)^[i] v0) hmem (by omega)
  have hiter : (Graph.next g)^[j - i] ((Graph.next g)^[i] v0) =
      (Graph.next g)^[j] v0 := by
    rw [← Function.iterate_add_apply]
    congr 1
    omega
  rw [hiter, ← heq2] at htg
  exact htg

theorem Graph.sortFuel_acyclic_success (fuel : Nat) (g : Graph)
    (hf : g.length ≤ fuel) (hInv : GraphInv g) (hA : Graph.Acyclic g) :
    (Graph.sortFuel fuel g).2.2 = none := by
  induction fuel generalizing g with
  | zero => rfl
  | succ fuel ih =>
    rw [Graph.sortFuel_succ]
    by_cases h0 : Graph.Size g = 0
    · simp [h0]
    · rw [if_neg h0]
      by_cases h1 : (Graph.leafVertices g).isEmpty
      · exfalso
        have hleaf : Graph.leafVertices g = [] := by
          simpa [List.isEmpty_iff] using h1
        have hne : g ≠ [] := fun hc => h0 (by simp [Graph.Size, hc])
        rcases Graph.no_leaf_cycle g hInv.refsClosed hInv.keysNodup hne hleaf with
          ⟨v, hv⟩
        exact hA v hv
      · rw [if_neg h1]
        have hlt := Graph.length_step_lt g (by simpa using h1)
        show (Graph.sortFuel fuel (Graph.step g)).2.2 = none
        apply ih (Graph.step g) (by omega)
        · rw [Graph.step_eq]
          exact GraphInv_removeAll g _ hInv
        · exact Graph.Acyclic_step g hA

/-- C2: for an acyclic graph reachable by insertion calls, `Sort` returns no
error, and the concatenation of the returned layers enumerates the full
vertex set exactly once (a duplicate-free permutation of `GetVertices`). -/
theorem claim_C2 (g : Graph) (hB : Built g) (hA : Graph.Acyclic g) :
    (Graph.topoSort g).2.2 = none ∧
    ((Graph.topoSort g).1.flatten).Perm (Graph.GetVertices g) ∧
    ((Graph.topoSort g).1.flatten).Nodup := by
  have hInv := Built_inv g hB
  have hnone := Graph.sortFuel_acyclic_success (Graph.Size g) g le_rfl hInv hA
  have hres := Graph.sortFuel_success_residual (Graph.Size g) g le_rfl hnone
  have hperm := Graph.sortFuel_perm (Graph.Size g) g hInv.keysNodup
  rw [hres] at hperm
  have hperm2 : ((Graph.topoSort g).1.flatten).Perm (Graph.keys g) := by
    simpa [Graph.keys] using hperm
  refine ⟨hnone, ?_, ?_⟩
  · exact hperm2.trans (List.perm_insertionSort metaLEr (Graph.keys g)).symm
  · exact hperm2.nodup_iff.mpr hInv.keysNodup

/-- Any graph whose edge relation consists of the single pair `(a, b)` with
`a ≠ b` is acyclic. -/
theorem acyclic_of_unique_edge (g : Graph) (a b : ObjMetadata) (hne : a ≠ b)
    (h : ∀ x y, Graph.Rel g x y → x = a ∧ y = b) : Graph.Acyclic g := by
  intro v htg
  have key : ∀ w z, Relation.TransGen (Graph.Rel g) w z → w = a ∧ z = b := by
    intro w z htg2
    induction htg2 with
    | single h1 => exact h _ _ h1
    | tail htg2 h1 ih =>
      rcases h _ _ h1 with ⟨hx, _⟩
      rcases ih with ⟨_, ih2⟩
      rw [ih2] at hx
      exact absurd hx.symm hne
  rcases key v v htg with ⟨h1, h2⟩
  exact hne (h1.symm.trans h2)

/-- The simple chain of the spec's §8: `objB` depends on `objA`. -/
def gChain : Graph := Graph.AddEdge Graph.New objB objA

theorem gChain_rel (x y : ObjMetadata) (h : Graph.Rel gChain x y) :
    x = objB ∧ y = objA := by
  have hval : gChain = [(objB, [objA]), (objA, [])] := by decide
  unfold Graph.Rel Graph.isAdjacent at h
  rw [hval] at h
  by_cases h1 : objB = x
  · rw [Graph.adj, if_pos (show ((objB, [objA]) : ObjMetadata × ObjMetadataSet).1 = x from h1)] at h
    simp only [decide_eq_true_eq] at h
    simp at h
    exact ⟨h1.symm, h⟩
  · rw [Graph.adj,
      if_neg (show ¬ ((objB, [objA]) : ObjMetadata × ObjMetadataSet).1 = x from h1),
      Graph.adj] at h
    by_cases h2 : objA = x
    · rw [if_pos (show ((objA, []) : ObjMetadata × ObjMetadataSet).1 = x from h2)] at h
      simp at h
    · rw [if_neg (show ¬ ((objA, []) : ObjMetadata × ObjMetadataSet).1 = x from h2),
        Graph.adj] at h
      simp at h

/-- Witness for C2 on the simple-chain graph: it is reachable by insertion
calls and acyclic, and its sort succeeds with each vertex in exactly one
layer. -/
theorem claim_C2_witness :
    Built gChain ∧ Graph.Acyclic gChain ∧
    ((Graph.topoSort gChain).2.2 = none ∧
      ((Graph.topoSort gChain).1.flatten).Perm (Graph.GetVertices gChain) ∧
      ((Graph.topoSort gChain).1.flatten).Nodup) :=
  have hB : Built gChain := Built.addEdge Graph.New objB objA Built.new
  have hA : Graph.Acyclic gChain :=
    acyclic_of_unique_edge gChain objB objA (by decide) gChain_rel
  ⟨hB, hA, claim_C2 gChain hB hA⟩

theorem Graph.not_leaf_of_isAdjacent (g : Graph) (a b : ObjMetadata)
    (hnd : (Graph.keys g).Nodup) (h : Graph.isAdjacent g a b = true) :
    a ∉ Graph.leafVertices g := by
  intro hc
  rw [Graph.isAdjacent] at h
  rcases ho : Graph.adj g a with _ | l
  · rw [ho] at h
    simp at h
  · rw [ho] at h
    have h2 := Graph.mem_adj g a [] hnd ((Graph.mem_leafVertices g a).mp hc)
    rw [ho] at h2
    injection h2 with h2
    rw [h2] at h
    simp at h

theorem Graph.isAdjacent_step (g : Graph) (a b : ObjMetadata)
    (hnd : (Graph.keys g).Nodup) (h : Graph.isAdjacent g a b = true)
    (hb : b ∉ Graph.leafVertices g) :
    Graph.isAdjacent (Graph.step g) a b = true := by
  have ha : a ∉ Graph.leafVertices g := Graph.not_leaf_of_isAdjacent g a b hnd h
  rw [Graph.isAdjacent] at h
  rcases ho : Graph.adj g a with _ | l
  · rw [ho] at h
    simp at h
  · rw [ho] at h
    simp only [decide_eq_true_eq] at h
    rw [Graph.step_eq, Graph.isAdjacent, Graph.adj_removeAll, if_neg ha, ho]
    show decide (b ∈ l.filter (fun u => !decide (u ∈ Graph.leafVertices g))) = true
    rw [decide_eq_true_eq]
    exact List.mem_filter.mpr ⟨h, by simpa using hb⟩

theorem Graph.mem_keys_step (g : Graph) (a : ObjMetadata)
    (ha : a ∈ Graph.keys g) (hal : a ∉ Graph.leafVertices g) :
    a ∈ Graph.keys (Graph.step g) := by
  rw [Graph.step_eq, Graph.keys_removeAll]
  exact List.mem_filter.mpr ⟨ha, by simpa using hal⟩

theorem Graph.sortFuel_ordering (fuel : Nat) (g : Graph) (hf : g.length ≤ fuel)
    (hInv : GraphInv g) (a b : ObjMetadata)
    (hab : Graph.isAdjacent g a b = true)
    (hnone : (Graph.sortFuel fuel g).2.2 = none) :
    ∃ i j, i < j ∧
      ∃ (hi : i < (Graph.sortFuel fuel g).1.length)
        (hj : j < (Graph.sortFuel fuel g).1.length),
        b ∈ (Graph.sortFuel fuel g).1.get ⟨i, hi⟩ ∧
        a ∈ (Graph.sortFuel fuel g).1.get ⟨j, hj⟩ := by
  induction fuel generalizing g with
  | zero =>
    exfalso
    have hg : g = [] := List.length_eq_zero.mp (Nat.le_zero.mp hf)
    rw [hg] at hab
    simp [Graph.isAdjacent, Graph.adj] at hab
  | succ fuel ih =>
    rw [Graph.sortFuel_succ] at hnone ⊢
    by_cases h0 : Graph.Size g = 0
    · exfalso
      have hg : g = [] := List.length_eq_zero.mp h0
      rw [hg] at hab
      simp [Graph.isAdjacent, Graph.adj] at hab
    · rw [if_neg h0] at hnone ⊢
      by_cases h1 : (Graph.leafVertices g).isEmpty
      · rw [if_pos h1] at hnone
        simp at hnone
      · rw [if_neg h1] at hnone ⊢
        have hlt := Graph.length_step_lt g (by simpa using h1)
        have hInv2 : GraphInv (Graph.step g) := by
          rw [Graph.step_eq]
          exact GraphInv_removeAll g _ hInv
        have hnone2 : (Graph.sortFuel fuel (Graph.step g)).2.2 = none := hnone
        have ha : a ∉ Graph.leafVertices g :=
          Graph.not_leaf_of_isAdjacent g a b hInv.keysNodup hab
        by_cases hb : b ∈ Graph.leafVertices g
        · have hak : a ∈ Graph.keys (Graph.step g) :=
            Graph.mem_keys_step g a (Graph.isAdjacent_mem_keys g a b hab) ha
          have hres := Graph.sortFuel_success_residual fuel (Graph.step g)
            (by omega) hnone2
          have hperm := Graph.sortFuel_perm fuel (Graph.step g) hInv2.keysNodup
          rw [hres] at hperm
          have haf0 := (hperm.mem_iff).mpr hak
          have haf : a ∈ (Graph.sortFuel fuel (Graph.step g)).1.flatten := by
            simpa [Graph.keys] using haf0
          rcases List.mem_flatten.mp haf with ⟨l, hl, hal2⟩
          rcases List.mem_iff_get.mp hl with ⟨k, hk⟩
          refine ⟨0, k.1 + 1, by omega, Nat.succ_pos _,
            Nat.succ_lt_succ k.2, hb, ?_⟩
          show a ∈ (Graph.sortFuel fuel (Graph.step g)).1.get k
          rw [hk]
          exact hal2
        · have hab2 : Graph.isAdjacent (Graph.step g) a b = true :=
            Graph.isAdjacent_step g a b hInv.keysNodup hab hb
          rcases ih (Graph.step g) (by omega) hInv2 hab2 hnone2 with
            ⟨i, j, hij, hi, hj, hbi, haj⟩
          refine ⟨i + 1, j + 1, by omega, Nat.succ_lt_succ hi,
            Nat.succ_lt_succ hj, ?_, ?_⟩
          · show b ∈ (Graph.sortFuel fuel (Graph.step g)).1.get ⟨i, hi⟩
            exact hbi
          · show a ∈ (Graph.sortFuel fuel (Graph.step g)).1.get ⟨j, hj⟩
            exact haj

/-- C1: for a graph reachable by insertion calls whose edge set is acyclic,
every edge `a` depends-on `b` puts `b` in a strictly earlier layer of the
sequence returned by `Sort` than `a`. -/
theorem claim_C1 (g : Graph) (hB : Built g) (hA : Graph.Acyclic g)
    (a b : ObjMetadata) (hab : Graph.isAdjacent g a b = true) :
    ∃ i j, i < j ∧
      ∃ (hi : i < (Graph.topoSort g).1.length)
        (hj : j < (Graph.topoSort g).1.length),
        b ∈ (Graph.topoSort g).1.get ⟨i, hi⟩ ∧
        a ∈ (Graph.topoSort g).1.get ⟨j, hj⟩ :=
  Graph.sortFuel_ordering (Graph.Size g) g le_rfl (Built_inv g hB) a b hab
    (Graph.sortFuel_acyclic_success (Graph.Size g) g le_rfl (Built_inv g hB) hA)

/-- Witness for C1 on the simple chain `objB` depends-on `objA`: `objA`'s
layer comes strictly before `objB`'s. -/
theorem claim_C1_witness :
    Built gChain ∧ Graph.Acyclic gChain ∧
    Graph.isAdjacent gChain objB objA = true ∧
    ∃ i j, i < j ∧
      ∃ (hi : i < (Graph.topoSort gChain).1.length)
        (hj : j < (Graph.topoSort gChain).1.length),
        objA ∈ (Graph.topoSort gChain).1.get ⟨i, hi⟩ ∧
        objB ∈ (Graph.topoSort gChain).1.get ⟨j, hj⟩ :=
  have hB : Built gChain := Built.addEdge Graph.New objB objA Built.new
  have hA : Graph.Acyclic gChain :=
    acyclic_of_unique_edge gChain objB objA (by decide) gChain_rel
  ⟨hB, hA, by decide, claim_C1 gChain hB hA objB objA (by decide)⟩
